import Mathlib

/-!
Shallow embedding of `src/translation.py` (class `JSONFileManagerApp`).

Python `dict`s are insertion-ordered, so `json_data` (file name → data) and each
document's data (key → value) are modelled as insertion-ordered association
lists.  Values are modelled as strings: the application renders every value via
`f"{key}: {value}"` / `str(value)` and the spec treats values as opaque display
strings.  Tk widgets are dropped; each operation is a function from the mutable
state it reads to the state it leaves plus the listbox contents it renders.
-/

namespace Translation

/-- One document's `data` dict: key/value pairs in insertion order. -/
abbrev Entries := List (String × String)

/-- Model of `self.json_data`: file name → document data, in load order. -/
abbrev Docs := List (String × Entries)

/-- Python `data[key]` lookup (first matching key; dicts hold each key once). -/
def getKey : Entries → String → Option String
  | [], _ => none
  | p :: ps, k => if p.1 == k then some p.2 else getKey ps k

/-- Python `key in data`. -/
def containsKey (es : Entries) (k : String) : Bool :=
  (getKey es k).isSome

/-- Python `data[key] = value`: overwrite in place, or append a new entry. -/
def setKey : Entries → String → String → Entries
  | [], k, v => [(k, v)]
  | p :: ps, k, v => if p.1 == k then (k, v) :: ps else p :: setKey ps k v

/-- Python `del data[key]`. -/
def delKey : Entries → String → Entries
  | [], _ => []
  | p :: ps, k => if p.1 == k then delKey ps k else p :: delKey ps k

/-- Python `x.isdigit()` for the ASCII-decimal case: non-empty and all digits. -/
def pyIsDigit (s : String) : Bool :=
  !s.isEmpty && s.toList.all Char.isDigit

/-- Python `s.strip()`: drop leading and trailing whitespace. -/
def pyStrip (s : String) : String :=
  ⟨((s.toList.dropWhile Char.isWhitespace).reverse.dropWhile Char.isWhitespace).reverse⟩

/-- Python `s.lower()`: lowercase each character. -/
def pyLower (s : String) : String :=
  ⟨s.toList.map Char.toLower⟩

/-- Python `<` on strings: lexicographic comparison of code points, a proper
non-empty suffix making the longer string greater. -/
def charListLt : List Char → List Char → Bool
  | [], [] => false
  | [], _ :: _ => true
  | _ :: _, [] => false
  | a :: as, b :: bs =>
    decide (a.toNat < b.toNat) || (a.toNat == b.toNat && charListLt as bs)

/-- Python `a < b` on strings. -/
def strLtB (a b : String) : Bool :=
  charListLt a.toList b.toList

/-- Python `a <= b` on strings. -/
def strLeB (a b : String) : Bool :=
  !(charListLt b.toList a.toList)

/-- Python `sub in s` (contiguous substring test), on the character lists. -/
def listContainsSub (s sub : List Char) : Bool :=
  (List.range (s.length + 1)).any fun i => (s.drop i).take sub.length == sub

/-- Python `sub in s` on strings. -/
def strContains (s sub : String) : Bool :=
  listContainsSub s.toList sub.toList

/-- The mutable fields of `JSONFileManagerApp` the core operations touch. -/
structure AppState where
  json_data : Docs
  selectedKey : String
  searchEntry : String
deriving DecidableEq, Repr

/-- The sort key `lambda x: (not x.isdigit(), x)` used by `refresh_display`. -/
def pyKey (x : String) : Bool × String :=
  (!(pyIsDigit x), x)

/-- Python's ascending tuple comparison on `(Bool, String)` pairs
(`False < True`, strings lexicographic). -/
def tupLe (p q : Bool × String) : Bool :=
  if p.1 = q.1 then strLeB p.2 q.2 else (!p.1 && q.1)

/-- The key order of `refresh_display`: `sorted(keys, key=lambda x: (not x.isdigit(), x))`. -/
def displayLe (a b : String) : Prop :=
  tupLe (pyKey a) (pyKey b) = true

instance : DecidableRel displayLe := fun a b => by
  unfold displayLe; infer_instance

/-- Model of `refresh_display`: the rows `(key, value)` one listbox shows for one
document, keys sorted by `(not key.isdigit(), key)`. -/
def refresh_display (es : Entries) : List (String × String) :=
  (List.insertionSort displayLe (es.map Prod.fst)).map fun k =>
    (k, (getKey es k).getD "")

/-- Model of `refresh_display_all`: re-render every document; also performs the
source's `self.search_entry = ''` assignment. -/
def refresh_display_all (s : AppState) : AppState × List (String × List (String × String)) :=
  ({ s with searchEntry := "" }, s.json_data.map fun d => (d.1, refresh_display d.2))

/-! ### search_node -/

/-- First pass of `search_node`: keys (over all documents, in iteration order)
with `search_key in key.lower()`.  The source accumulates them into the set
`matched_keys`; membership is all that is ever queried, so a list suffices. -/
def phase1Keys (q : String) (docs : Docs) : List String :=
  docs.flatMap fun d =>
    (d.2.filter fun p => strContains (pyLower p.1) q).map Prod.fst

/-- Second pass of `search_node`: keys whose value satisfies
`search_key in str(value).lower()`. -/
def phase2Keys (q : String) (docs : Docs) : List String :=
  docs.flatMap fun d =>
    (d.2.filter fun p => strContains (pyLower p.2) q).map Prod.fst

/-- The set `matched_keys` after both passes: the second pass runs only when the first
found nothing, and replaces the set. -/
def matched_keys (q : String) (docs : Docs) : List String :=
  if phase1Keys q docs = [] then phase2Keys q docs else phase1Keys q docs

/-- Final pass of `search_node`: `(key, value, file_name)` tuples for every
document and every entry whose key is in `matched_keys`. -/
def final_results (q : String) (docs : Docs) : List (String × String × String) :=
  if matched_keys q docs = [] then []
  else
    docs.flatMap fun d =>
      (d.2.filter fun p => (matched_keys q docs).contains p.1).map fun p =>
        (p.1, p.2, d.1)

/-- The sort key `lambda x: (x[2], x[0])` of the final pass: rows ordered by
`(file_name, key)` ascending. -/
def rowLe (a b : String × String × String) : Prop :=
  strLtB a.2.2 b.2.2 = true ∨ a.2.2 = b.2.2 ∧ strLeB a.1 b.1 = true

instance : DecidableRel rowLe := fun a b => by
  unfold rowLe; infer_instance

/-- What the listbox of document `fn` shows after a non-empty search: the
sorted `final_results` restricted to `fn == file_name`, rendered as
`(key, value)` rows. -/
def search_rows (q : String) (docs : Docs) (fn : String) : List (String × String) :=
  ((List.insertionSort rowLe (final_results q docs)).filter fun r =>
    r.2.2 == fn).map fun r => (r.1, r.2.1)

/-- Model of `search_node`: strip and lowercase the query; an empty query falls back to
`refresh_display_all`, otherwise every listbox is refilled from the sorted
`final_results`. -/
def search_node (s : AppState) : AppState × List (String × List (String × String)) :=
  let q := pyLower (pyStrip s.searchEntry)
  if q = "" then refresh_display_all s
  else (s, s.json_data.map fun d => (d.1, search_rows q s.json_data d.1))

/-! ### add_node / save_node -/

inductive AddError where
  | emptyKey
  | duplicateKey
deriving DecidableEq, Repr

/-- The write loop of `save_node`: for each file's input box in order, strip
the value and, when non-empty, `self.json_data[file_name][key] = value`. -/
def applyAdds (key : String) : List (String × String) → Docs → Docs
  | [], docs => docs
  | (fn, raw) :: rest, docs =>
    let v := pyStrip raw
    applyAdds key rest
      (if v = "" then docs
       else docs.map fun d => if d.1 == fn then (d.1, setKey d.2 key v) else d)

/-- Model of `save_node` (the OK handler of the Add Node window): reject an empty key,
reject a key present in any loaded document before touching anything, else
insert the non-empty stripped values and refresh.  `inputs` is one
`(file_name, entry text)` pair per value box. -/
def save_node (rawKey : String) (inputs : List (String × String)) (s : AppState) :
    AppState × Option AddError :=
  let key := pyStrip rawKey
  if key = "" then (s, some AddError.emptyKey)
  else if s.json_data.any fun d => containsKey d.2 key then
    (s, some AddError.duplicateKey)
  else
    ({ s with json_data := applyAdds key inputs s.json_data, searchEntry := "" }, none)

/-! ### delete_node -/

/-- The delete loop of `delete_node`: `for fn, data in self.json_data.items():
if key in data: del data[key]`. -/
def deleteKeyAll (key : String) (docs : Docs) : Docs :=
  docs.map fun d => if containsKey d.2 key then (d.1, delKey d.2 key) else d

/-- Model of `delete_node`: acts only when `self.selectedKey` is truthy and the user
confirms; deletes the key from every document that has it and refreshes.
`self.selectedKey` is never written. -/
def delete_node (confirm : Bool) (s : AppState) : AppState :=
  if s.selectedKey ≠ "" ∧ confirm then
    { s with json_data := deleteKeyAll s.selectedKey s.json_data, searchEntry := "" }
  else s

/-! ### edit window -/

/-- Model of `update_values` (the OK handler of the edit window): for each file's input
box, `self.json_data[fn][key] = entry.get()` — unconditionally, unstripped. -/
def update_values (key : String) : List (String × String) → Docs → Docs
  | [], docs => docs
  | (fn, v) :: rest, docs =>
    update_values key rest
      (docs.map fun d => if d.1 == fn then (d.1, setKey d.2 key v) else d)

/-- App-level wrapper of `update_values` (it ends in `refresh_display_all`). -/
def update_values_app (key : String) (inputs : List (String × String)) (s : AppState) :
    AppState :=
  { s with json_data := update_values key inputs s.json_data, searchEntry := "" }

/-! ### on_listbox_select -/

/-- Model of `on_listbox_select`: a selection stores the clicked row's key into
`self.selectedKey`. -/
def on_listbox_select (key : String) (s : AppState) : AppState :=
  { s with selectedKey := key }

/-! ### save_json_files -/

/-- Model of `save_json_files`: write each document to its path in turn.  `writable`
models the file system; an unwritable path raises, which aborts the loop.
Returns the names written before the failure and the failing name, if any. -/
def save_json_files (writable : String → Bool) : Docs → List String × Option String
  | [] => ([], none)
  | d :: ds =>
    if writable d.1 then
      let r := save_json_files writable ds
      (d.1 :: r.1, r.2)
    else ([], some d.1)

/-- App-level `save_json_files`: the loop reads `self.json_data` and
`self.file_paths` but assigns no field, so the state passes through. -/
def save_json_files_app (writable : String → Bool) (s : AppState) :
    AppState × List String × Option String :=
  (s, save_json_files writable s.json_data)

/-! ## Helper lemmas -/

theorem getKey_delKey_self (es : Entries) (k : String) :
    getKey (delKey es k) k = none := by
  induction es with
  | nil => rfl
  | cons p ps ih =>
    by_cases h : p.1 == k
    · simpa [delKey, h] using ih
    · simp [delKey, getKey, h, ih]

theorem containsKey_delKey_self (es : Entries) (k : String) :
    containsKey (delKey es k) k = false := by
  simp [containsKey, getKey_delKey_self]

theorem getKey_setKey_self (es : Entries) (k v : String) :
    getKey (setKey es k v) k = some v := by
  induction es with
  | nil => simp [setKey, getKey]
  | cons p ps ih =>
    by_cases h : p.1 == k
    · simp [setKey, getKey, h]
    · simp [setKey, getKey, h, ih]

theorem lookup_eq_none_of_not_mem (m : List (String × String)) (fn : String)
    (h : fn ∉ m.map Prod.fst) : m.lookup fn = none := by
  induction m with
  | nil => rfl
  | cons p rest ih =>
    obtain ⟨a, b⟩ := p
    simp only [List.map_cons, List.mem_cons, not_or] at h
    have hb : (fn == a) = false := beq_eq_false_iff_ne.mpr h.1
    simp only [List.lookup, hb]
    exact ih h.2

theorem lookup_eq_some_of_nodup (m : List (String × String)) (fv : String × String)
    (hm : (m.map Prod.fst).Nodup) (hmem : fv ∈ m) :
    m.lookup fv.1 = some fv.2 := by
  induction m with
  | nil => cases hmem
  | cons p rest ih =>
    rcases List.mem_cons.mp hmem with rfl | hmem2
    · cases fv
      simp [List.lookup]
    · have hp : p.1 ∉ rest.map Prod.fst := (List.nodup_cons.mp hm).1
      have hne : fv.1 ≠ p.1 := by
        intro h
        exact hp (h ▸ List.mem_map_of_mem Prod.fst hmem2)
      have hb : (fv.1 == p.1) = false := beq_eq_false_iff_ne.mpr hne
      cases p
      simp only [List.lookup, hb]
      exact ih (List.nodup_cons.mp hm).2 hmem2

/-- The function `update_values` characterized document-wise: with distinct input names,
each document whose name appears in the inputs gets `entries[key] = value`,
every other document passes through. -/
theorem update_values_eq (key : String) (m : List (String × String)) (docs : Docs)
    (hm : (m.map Prod.fst).Nodup) :
    update_values key m docs = docs.map fun d =>
      match m.lookup d.1 with
      | some v => (d.1, setKey d.2 key v)
      | none => d := by
  induction m generalizing docs with
  | nil =>
    simp [update_values, List.lookup]
  | cons p rest ih =>
    obtain ⟨fn, v⟩ := p
    have hp : fn ∉ rest.map Prod.fst := by
      simpa using (List.nodup_cons.mp hm).1
    rw [show update_values key ((fn, v) :: rest) docs =
          update_values key rest
            (docs.map fun d => if d.1 == fn then (d.1, setKey d.2 key v) else d) from rfl,
        ih _ (List.nodup_cons.mp hm).2, List.map_map]
    apply List.map_congr_left
    intro d _
    by_cases h : d.1 == fn
    · have hd : d.1 = fn := eq_of_beq h
      simp only [Function.comp_apply, h, if_pos]
      rw [lookup_eq_none_of_not_mem rest d.1 (hd ▸ hp)]
      simp [List.lookup, hd]
    · have hd : d.1 ≠ fn := ne_of_beq_false (eq_false_of_ne_true h)
      simp only [Function.comp_apply, h, if_neg, Bool.false_eq_true, not_false_iff]
      simp [List.lookup, beq_eq_false_iff_ne.mpr hd]

theorem charListLt_trans {a b c : List Char} (hab : charListLt a b = true)
    (hbc : charListLt b c = true) : charListLt a c = true := by
  induction a generalizing b c with
  | nil =>
    cases b with
    | nil => cases hab
    | cons y ys =>
      cases c with
      | nil => cases hbc
      | cons z zs => rfl
  | cons x xs ih =>
    cases b with
    | nil => cases hab
    | cons y ys =>
      cases c with
      | nil => cases hbc
      | cons z zs =>
        simp only [charListLt, Bool.or_eq_true, Bool.and_eq_true, decide_eq_true_eq,
          beq_iff_eq] at hab hbc ⊢
        rcases hab with h1 | ⟨h1, h1r⟩ <;> rcases hbc with h2 | ⟨h2, h2r⟩
        · exact Or.inl (Nat.lt_trans h1 h2)
        · exact Or.inl (h2 ▸ h1)
        · exact Or.inl (h1 ▸ h2)
        · exact Or.inr ⟨h1.trans h2, ih h1r h2r⟩

theorem charListLt_asymm {a b : List Char} (hab : charListLt a b = true) :
    charListLt b a = false := by
  induction a generalizing b with
  | nil =>
    cases b with
    | nil => cases hab
    | cons y ys => rfl
  | cons x xs ih =>
    cases b with
    | nil => cases hab
    | cons y ys =>
      simp only [charListLt, Bool.or_eq_true, Bool.and_eq_true, decide_eq_true_eq,
        beq_iff_eq] at hab
      simp only [charListLt, Bool.or_eq_false_iff, Bool.and_eq_false_iff,
        decide_eq_false_iff_not, beq_eq_false_iff_ne]
      rcases hab with h | ⟨h, hr⟩
      · exact ⟨Nat.lt_asymm h, Or.inl fun hy => absurd (hy ▸ h) (Nat.lt_irrefl _)⟩
      · exact ⟨fun hy => absurd (h ▸ hy) (Nat.lt_irrefl _), Or.inr (ih hr)⟩

theorem charListLt_connex {a b : List Char} (hab : charListLt a b = false)
    (hba : charListLt b a = false) : a = b := by
  induction a generalizing b with
  | nil =>
    cases b with
    | nil => rfl
    | cons y ys => cases hab
  | cons x xs ih =>
    cases b with
    | nil => cases hba
    | cons y ys =>
      simp only [charListLt, Bool.or_eq_false_iff, Bool.and_eq_false_iff,
        decide_eq_false_iff_not, beq_eq_false_iff_ne] at hab hba
      have hxy : x.toNat = y.toNat := by
        rcases Nat.lt_trichotomy x.toNat y.toNat with h | h | h
        · exact absurd h hab.1
        · exact h
        · exact absurd h hba.1
      have hrest : charListLt xs ys = false := by
        rcases hab.2 with h | h
        · exact absurd hxy h
        · exact h
      have hrest2 : charListLt ys xs = false := by
        rcases hba.2 with h | h
        · exact absurd hxy.symm h
        · exact h
      have hx : x = y := Char.eq_of_val_eq (UInt32.ext hxy)
      rw [hx, ih hrest hrest2]

theorem string_eq_of_toList_eq {a b : String} (h : a.toList = b.toList) : a = b := by
  cases a
  cases b
  simp only [String.toList] at h
  rw [h]

theorem strLtB_irrefl (a : String) : strLtB a a = false := by
  cases h : charListLt a.toList a.toList
  · exact h
  · have h2 := charListLt_asymm h
    rw [h] at h2
    cases h2

instance : IsTrans (String × String × String) rowLe := by
  constructor
  intro a b c hab hbc
  rcases hab with h1 | ⟨h1, h1k⟩ <;> rcases hbc with h2 | ⟨h2, h2k⟩
  · exact Or.inl (charListLt_trans h1 h2)
  · exact Or.inl (h2 ▸ h1)
  · exact Or.inl (h1 ▸ h2)
  · refine Or.inr ⟨h1.trans h2, ?_⟩
    simp only [strLeB, Bool.not_eq_true', Bool.not_eq_false] at h1k h2k ⊢
    cases hca : charListLt c.1.toList a.1.toList
    · rfl
    · cases hab2 : charListLt a.1.toList b.1.toList
      · have : a.1.toList = b.1.toList := charListLt_connex hab2 h1k
        rw [← this] at h2k
        rw [h2k] at hca
        cases hca
      · have := charListLt_trans hca hab2
        rw [this] at h2k
        cases h2k

instance : IsTotal (String × String × String) rowLe := by
  constructor
  intro a b
  cases hab : strLtB a.2.2 b.2.2
  · cases hba : strLtB b.2.2 a.2.2
    · have hfn : a.2.2 = b.2.2 :=
        string_eq_of_toList_eq (charListLt_connex hab hba)
      cases hk : charListLt b.1.toList a.1.toList
      · exact Or.inl (Or.inr ⟨hfn, by simpa [strLeB, String.toList] using hk⟩)
      · exact Or.inr (Or.inr ⟨hfn.symm,
          by simpa [strLeB, String.toList] using charListLt_asymm hk⟩)
    · exact Or.inr (Or.inl hba)
  · exact Or.inl (Or.inl hab)

theorem mem_phase1Keys {q : String} {docs : Docs} {k : String}
    (h : k ∈ phase1Keys q docs) : strContains (pyLower k) q = true := by
  simp only [phase1Keys, List.mem_flatMap, List.mem_map, List.mem_filter] at h
  rcases h with ⟨d, _, p, ⟨_, hp⟩, rfl⟩
  exact hp

theorem save_json_files_spec (writable : String → Bool) (docs : Docs) :
    save_json_files writable docs =
      ((docs.map Prod.fst).takeWhile writable,
       ((docs.map Prod.fst).dropWhile writable).head?) := by
  induction docs with
  | nil => rfl
  | cons d ds ih =>
    by_cases h : writable d.1
    · simp [save_json_files, h, List.takeWhile_cons, List.dropWhile_cons, ih]
    · simp [save_json_files, h, List.takeWhile_cons, List.dropWhile_cons]

/-! ## Claims -/

/-- C1: the spec says the display ordering puts non-digit-only keys first
(`a, b, 10, 2` for keys `{b, 2, a, 10}`).  The code's sort key
`(not x.isdigit(), x)` puts `False` (digit-only) tuples first, so the code
actually displays `10, 2, a, b` — contradicting the spec and the source's own
comment "alphabetic first, numeric next". -/
theorem c1_refresh_display_digit_keys_first :
    refresh_display [("b", "1"), ("2", "2"), ("a", "3"), ("10", "4")] =
      [("10", "4"), ("2", "2"), ("a", "3"), ("b", "1")] := by
  rfl

/-- C2: `save_node` with a non-empty key that already exists in some loaded
document returns `DuplicateKeyError` with the state unchanged — the duplicate
check runs before any write, so the rejection is atomic. -/
theorem c2_add_duplicate_key_atomic (rawKey : String) (inputs : List (String × String))
    (s : AppState) (hk : pyStrip rawKey ≠ "")
    (hdup : (s.json_data.any fun d => containsKey d.2 (pyStrip rawKey)) = true) :
    save_node rawKey inputs s = (s, some AddError.duplicateKey) := by
  simp [save_node, hk, hdup]

theorem c2_add_duplicate_key_atomic_witness :
    save_node "x" [("A", "v"), ("B", "w")]
        { json_data := [("A", [("x", "1")]), ("B", [])], selectedKey := "", searchEntry := "" } =
      ({ json_data := [("A", [("x", "1")]), ("B", [])], selectedKey := "", searchEntry := "" },
       some AddError.duplicateKey) :=
  c2_add_duplicate_key_atomic "x" [("A", "v"), ("B", "w")] _ (by decide) (by decide)

/-- C3: `search_node` resolves in two phases.  Phase 1 collects every key (in
any document) whose lowercased key string contains the query; phase 2 runs
only when that collection is empty and replaces it with the value matches; so
whenever phase 1 found any key, every emitted row's key is itself a key
match — no value-only match ever appears. -/
theorem c3_search_two_phase (q : String) (docs : Docs) :
    (∀ d ∈ docs, ∀ p ∈ d.2,
      strContains (pyLower p.1) q = true → p.1 ∈ phase1Keys q docs) ∧
    (phase1Keys q docs = [] → matched_keys q docs = phase2Keys q docs) ∧
    (phase1Keys q docs ≠ [] →
      matched_keys q docs = phase1Keys q docs ∧
      ∀ fn, ∀ r ∈ search_rows q docs fn, strContains (pyLower r.1) q = true) := by
  refine ⟨?_, ?_, ?_⟩
  · intro d hd p hp hmatch
    simp only [phase1Keys, List.mem_flatMap, List.mem_map, List.mem_filter]
    exact ⟨d, hd, p, ⟨hp, hmatch⟩, rfl⟩
  · intro h1
    simp [matched_keys, h1]
  · intro h1
    have hmk : matched_keys q docs = phase1Keys q docs := by
      simp [matched_keys, h1]
    refine ⟨hmk, ?_⟩
    intro fn r hr
    simp only [search_rows, List.mem_map, List.mem_filter,
      List.mem_insertionSort] at hr
    rcases hr with ⟨row, ⟨hrow, _⟩, rfl⟩
    have hne : matched_keys q docs ≠ [] := by
      rw [hmk]
      exact h1
    simp only [final_results, if_neg hne, List.mem_flatMap, List.mem_map,
      List.mem_filter] at hrow
    rcases hrow with ⟨d, _, p, ⟨_, hcont⟩, rfl⟩
    have hpm : p.1 ∈ matched_keys q docs := by
      simpa using hcont
    rw [hmk] at hpm
    exact mem_phase1Keys hpm

theorem c3_search_two_phase_witness :
    phase1Keys "hello" [("A", [("hello", "1")]), ("B", [("x", "hello")])] ≠ [] ∧
    matched_keys "hello" [("A", [("hello", "1")]), ("B", [("x", "hello")])] =
      phase1Keys "hello" [("A", [("hello", "1")]), ("B", [("x", "hello")])] :=
  ⟨by decide,
   ((c3_search_two_phase "hello" [("A", [("hello", "1")]), ("B", [("x", "hello")])]).2.2
      (by decide)).1⟩

/-- C4: `delete_node`'s loop removes the key from every document that has it,
leaves every document that lacks it untouched, and is total — a missing key is
never an error. -/
theorem c4_delete_key_breadth (k : String) (docs : Docs) :
    (∀ d ∈ deleteKeyAll k docs, containsKey d.2 k = false) ∧
    List.Forall₂ (fun d d2 => d.1 = d2.1 ∧ (containsKey d.2 k = false → d2 = d))
      docs (deleteKeyAll k docs) := by
  constructor
  · intro d hd
    unfold deleteKeyAll at hd
    rcases List.mem_map.mp hd with ⟨d0, _, rfl⟩
    by_cases h : containsKey d0.2 k
    · simp [h, containsKey_delKey_self]
    · simp [h]
  · unfold deleteKeyAll
    rw [List.forall₂_map_right_iff, List.forall₂_same]
    intro d _
    by_cases h : containsKey d.2 k
    · simp [h]
    · simp [h]

theorem c4_delete_key_breadth_witness :
    (∀ d ∈ deleteKeyAll "k" [("A", [("k", "1"), ("j", "2")]), ("B", [("j", "3")])],
      containsKey d.2 "k" = false) ∧
    List.Forall₂ (fun d d2 => d.1 = d2.1 ∧ (containsKey d.2 "k" = false → d2 = d))
      [("A", [("k", "1"), ("j", "2")]), ("B", [("j", "3")])]
      (deleteKeyAll "k" [("A", [("k", "1"), ("j", "2")]), ("B", [("j", "3")])]) :=
  c4_delete_key_breadth "k" [("A", [("k", "1"), ("j", "2")]), ("B", [("j", "3")])]

/-- C5: `update_values` writes each input's value to `entries[key]` of the
named document independently — creating the key where it was absent and
overwriting where present — and leaves documents not named by the inputs
untouched. -/
theorem c5_edit_values_independent (key : String) (m : List (String × String)) (docs : Docs)
    (hm : (m.map Prod.fst).Nodup) :
    (∀ fv ∈ m, ∀ d ∈ update_values key m docs, d.1 = fv.1 → getKey d.2 key = some fv.2) ∧
    List.Forall₂ (fun d d2 => d.1 = d2.1 ∧ (d.1 ∉ m.map Prod.fst → d2 = d))
      docs (update_values key m docs) := by
  rw [update_values_eq key m docs hm]
  constructor
  · intro fv hfv d hd hname
    have hl := lookup_eq_some_of_nodup m fv hm hfv
    rcases List.mem_map.mp hd with ⟨d0, _, rfl⟩
    cases hcase : m.lookup d0.1 with
    | none =>
      simp only [hcase] at hname
      rw [← hname] at hl
      rw [hl] at hcase
      cases hcase
    | some v =>
      simp only [hcase] at hname ⊢
      rw [← hname] at hl
      rw [hl] at hcase
      injection hcase with hv
      exact hv ▸ getKey_setKey_self d0.2 key v
  · rw [List.forall₂_map_right_iff, List.forall₂_same]
    intro d _
    cases hcase : m.lookup d.1 with
    | none => exact ⟨rfl, fun _ => rfl⟩
    | some v =>
      refine ⟨rfl, fun hnot => ?_⟩
      have hnone := lookup_eq_none_of_not_mem m d.1 hnot
      rw [hcase] at hnone
      cases hnone

theorem c5_edit_values_independent_witness :
    (∀ fv ∈ [("A", "v1"), ("B", "v2")],
      ∀ d ∈ update_values "k" [("A", "v1"), ("B", "v2")] [("A", [("k", "0")]), ("B", [])],
        d.1 = fv.1 → getKey d.2 "k" = some fv.2) ∧
    List.Forall₂
      (fun d d2 => d.1 = d2.1 ∧ (d.1 ∉ [("A", "v1"), ("B", "v2")].map Prod.fst → d2 = d))
      [("A", [("k", "0")]), ("B", [])]
      (update_values "k" [("A", "v1"), ("B", "v2")] [("A", [("k", "0")]), ("B", [])]) :=
  c5_edit_values_independent "k" [("A", "v1"), ("B", "v2")]
    [("A", [("k", "0")]), ("B", [])] (by decide)

/-- C6: the spec says an empty (after trimming) query restores the §4.2
display ordering with non-digit keys first.  The code does fall back to
`refresh_display_all`, but that display puts digit-only keys first: on a
document with keys `{2, a}` the empty search shows `2` before `a`, not
`a` before `2` as the spec's ordering requires. -/
theorem c6_empty_query_shows_display_order :
    search_node { json_data := [("A", [("2", "x"), ("a", "y")])],
                  selectedKey := "", searchEntry := "  " } =
      refresh_display_all { json_data := [("A", [("2", "x"), ("a", "y")])],
                            selectedKey := "", searchEntry := "  " } ∧
    (search_node { json_data := [("A", [("2", "x"), ("a", "y")])],
                   selectedKey := "", searchEntry := "  " }).2 =
      [("A", [("2", "x"), ("a", "y")])] := by
  exact ⟨rfl, rfl⟩

/-- C7: for a non-empty matched set, the rows `search_node` puts into the
listbox of document `fn` are sorted by the plain `(file_name, key)` order —
within one document, keys in plain lexicographic order with no
alphabetic/digit split — and they are exactly the matched keys that document
actually has, with their values. -/
theorem c7_search_rows_ordering (q : String) (docs : Docs) (fn : String) (es : Entries)
    (hnd : (docs.map Prod.fst).Nodup) (hd : (fn, es) ∈ docs)
    (hm : matched_keys q docs ≠ []) :
    List.Pairwise (fun a b : String × String => strLeB a.1 b.1 = true)
      (search_rows q docs fn) ∧
    ∀ kv : String × String,
      kv ∈ search_rows q docs fn ↔
        kv ∈ es.filter fun p => (matched_keys q docs).contains p.1 := by
  constructor
  · rw [search_rows, List.pairwise_map]
    have hsorted : List.Pairwise rowLe (List.insertionSort rowLe (final_results q docs)) :=
      List.sorted_insertionSort rowLe _
    have hfil : List.Pairwise rowLe
        ((List.insertionSort rowLe (final_results q docs)).filter fun r => r.2.2 == fn) :=
      hsorted.sublist (List.filter_sublist _)
    refine hfil.imp_of_mem ?_
    intro a b ha hb hab
    have hafn : a.2.2 = fn := eq_of_beq (List.mem_filter.mp ha).2
    have hbfn : b.2.2 = fn := eq_of_beq (List.mem_filter.mp hb).2
    rcases hab with hlt | ⟨_, hle⟩
    · rw [hafn, hbfn, strLtB_irrefl] at hlt
      cases hlt
    · exact hle
  · intro kv
    simp only [search_rows, List.mem_map, List.mem_filter, List.mem_insertionSort]
    constructor
    · rintro ⟨row, ⟨hrow, hfn2⟩, rfl⟩
      simp only [final_results, if_neg hm, List.mem_flatMap, List.mem_map,
        List.mem_filter] at hrow
      rcases hrow with ⟨d, hddocs, p, ⟨hpd, hcont⟩, rfl⟩
      have hdeq : d = (fn, es) :=
        List.inj_on_of_nodup_map hnd hddocs hd (eq_of_beq hfn2)
      rw [hdeq] at hpd
      exact ⟨hpd, hcont⟩
    · intro hkv
      refine ⟨(kv.1, kv.2, fn), ⟨?_, by simp⟩, by simp⟩
      simp only [final_results, if_neg hm, List.mem_flatMap, List.mem_map,
        List.mem_filter]
      exact ⟨(fn, es), hd, kv, ⟨hkv.1, hkv.2⟩, by simp⟩

theorem c7_search_rows_ordering_witness :
    List.Pairwise (fun a b : String × String => strLeB a.1 b.1 = true)
      (search_rows "hello" [("A", [("hello", "1")]), ("B", [("x", "hello")])] "A") ∧
    ∀ kv : String × String,
      kv ∈ search_rows "hello" [("A", [("hello", "1")]), ("B", [("x", "hello")])] "A" ↔
        kv ∈ [("hello", "1")].filter fun p =>
          (matched_keys "hello"
            [("A", [("hello", "1")]), ("B", [("x", "hello")])]).contains p.1 :=
  c7_search_rows_ordering "hello" [("A", [("hello", "1")]), ("B", [("x", "hello")])]
    "A" [("hello", "1")] (by decide) (by decide) (by decide)

/-- C8 counterexample: after `delete_node` removes the selected key `k` from
every document, `self.selectedKey` is still `"k"` — the code never clears
the selection cursor. -/
theorem c8_selected_key_not_cleared_cex :
    (delete_node true { json_data := [("A", [("k", "v")])],
                        selectedKey := "k", searchEntry := "" }).json_data = [("A", [])] ∧
    (delete_node true { json_data := [("A", [("k", "v")])],
                        selectedKey := "k", searchEntry := "" }).selectedKey = "k" := by
  exact ⟨rfl, rfl⟩

/-- C8 (amended): `delete_node` never writes `self.selectedKey`; the cursor
keeps naming the deleted key until the next listbox selection overwrites it. -/
theorem c8_selected_key_preserved (confirm : Bool) (s : AppState) :
    (delete_node confirm s).selectedKey = s.selectedKey := by
  unfold delete_node
  split <;> rfl

/-- C9 counterexample: with document `A` unwritable and `B` writable, the save
loop raises on `A` and never writes `B` — the failure does block the
remaining documents, contrary to the claim. -/
theorem c9_save_abort_cex :
    save_json_files (fun n => n == "B") [("A", [("k", "v")]), ("B", [("k", "w")])] =
      ([], some "A") := by
  rfl

/-- C9 (amended): one unwritable origin surfaces an error naming that
document and does not roll back in-memory state, but it aborts the loop: the
documents written are exactly the longest writable prefix, and the error names
the first unwritable document. -/
theorem c9_save_stops_at_first_failure (writable : String → Bool) (s : AppState) :
    (save_json_files_app writable s).1 = s ∧
    (save_json_files_app writable s).2.1 = (s.json_data.map Prod.fst).takeWhile writable ∧
    (save_json_files_app writable s).2.2 =
      ((s.json_data.map Prod.fst).dropWhile writable).head? := by
  refine ⟨rfl, ?_, ?_⟩ <;> simp [save_json_files_app, save_json_files_spec]

/-- C10: `search_node` never mutates `self.json_data` — both the empty-query
branch (which re-renders) and the search branch only read the model. -/
theorem c10_search_preserves_entries (s : AppState) :
    (search_node s).1.json_data = s.json_data := by
  unfold search_node refresh_display_all
  dsimp only
  split <;> rfl

end Translation
